import Mathlib

/-!
Verification of the text cleaning and normalization pipeline of the
RAG-ASD-Chat-app repository (`clean_text.py`), against its specification.

Texts are modelled as `List Char` (Python `str` values); each Python
function of the cleaning module is translated into an executable Lean
function of the same name.  Regular-expression substitutions
(`re.sub(pattern, '', text)`) are translated into explicit left-to-right
scans: at every position the leftmost-match semantics of the Python `re`
engine for the concrete pattern is reproduced by a hand-written matcher
that returns the number of characters consumed by the match starting at
that position.  The float expression `len(line) + 1e-6` is modelled by the
exact rational `len + 1/1000000`; for every line length below 2^32 the
comparison `digit_ratio > 0.5` computed with IEEE doubles agrees with the
rational comparison, since the two sides can only be equal when
`2 * count = len`, in which case both computations yield `false`.
Whitespace (`\s`, `str.strip`) is modelled by the six ASCII whitespace
characters; word characters (`\w`) by ASCII alphanumerics and underscore;
digits (`\d`) by ASCII digits.
-/

/-- Convert a string literal to the `List Char` text representation. -/
def toL (s : String) : List Char := s.toList

/-- Python regex `\s` (modelled as the ASCII whitespace characters). -/
def isSpcB (c : Char) : Bool :=
  c == ' ' || c == '\t' || c == '\n' || c == '\r' || c == '\x0b' || c == '\x0c'

/-- Horizontal whitespace, the character class `[ \t]`. -/
def isHwsB (c : Char) : Bool := c == ' ' || c == '\t'

/-- The newline character, as a Bool predicate. -/
def isNlB (c : Char) : Bool := c == '\n'

/-- Python regex `\w` (ASCII model): letters, digits and underscore. -/
def isWordC (c : Char) : Bool := c.isAlphanum || c == '_'

/-- Maximal run of characters satisfying `p`: returns the run length and
the remaining characters (`re` greedy `p*` matching). -/
def eatRun (p : Char → Bool) : List Char → Nat × List Char
  | [] => (0, [])
  | c :: cs =>
    if p c then
      let (n, r) := eatRun p cs
      (n + 1, r)
    else (0, c :: cs)

/-- Case-sensitive literal: consume `pat` from the front, returning the rest. -/
def eatLitCS : List Char → List Char → Option (List Char)
  | [], l => some l
  | _ :: _, [] => none
  | p :: ps, c :: cs => if p == c then eatLitCS ps cs else none

/-- Case-insensitive literal (`re.IGNORECASE`): consume `pat` from the
front up to ASCII case, returning the rest. -/
def eatLitCI : List Char → List Char → Option (List Char)
  | [], l => some l
  | _ :: _, [] => none
  | p :: ps, c :: cs => if p.toLower == c.toLower then eatLitCI ps cs else none

/-- `\b` at the start of a match whose first character is a word character:
the previous character (if any) must not be a word character. -/
def boundaryOk (prev : Option Char) : Bool :=
  match prev with
  | none => true
  | some c => !isWordC c

/-- `\b` after a match whose last character is a word character: the next
character (if any) must not be a word character. -/
def afterWordBoundary (rest : List Char) : Bool :=
  match rest with
  | [] => true
  | c :: _ => !isWordC c

/-- Python `"\n".join(...)` / `str.join` with separator `"\n"`. -/
def joinNl : List (List Char) → List Char
  | [] => []
  | [x] => x
  | x :: y :: rest => x ++ '\n' :: joinNl (y :: rest)

/-- Python `text.split('\n')`. -/
def splitNl : List Char → List (List Char)
  | [] => [[]]
  | c :: cs =>
    if c == '\n' then [] :: splitNl cs
    else
      match splitNl cs with
      | g :: gs => (c :: g) :: gs
      | [] => [[c]]

/-- Python `str.lstrip()` (whitespace from the left). -/
def lstripW (l : List Char) : List Char := l.dropWhile isSpcB

/-- Python `str.strip()`: whitespace removed from both ends. -/
def pyStrip (l : List Char) : List Char :=
  ((lstripW l).reverse.dropWhile isSpcB).reverse

/-- One pass of `re.sub(pattern, '', text)`: scan left to right; `m prev l`
returns the length (at least 1) of the leftmost match starting at the head
of `l`, given the previous character of the original text (`none` at the
start).  A match is removed and scanning resumes after it (Python's `re.sub`
scans the original string, so the "previous character" after a removal is
the last removed character); otherwise the character is kept.  `fuel` only
bounds the recursion: callers pass the text length, which always suffices
because every step consumes at least one character. -/
def subEngineF (m : Option Char → List Char → Option Nat) :
    Nat → Option Char → List Char → List Char
  | 0, _, l => l
  | _ + 1, _, [] => []
  | fuel + 1, prev, c :: cs =>
    match m prev (c :: cs) with
    | some (k + 1) => subEngineF m fuel (some ((c :: cs).getD k c)) (cs.drop k)
    | _ => c :: subEngineF m fuel (some c) cs

/-- Run a substitution pass over a whole text. -/
def runSub (m : Option Char → List Char → Option Nat) (l : List Char) : List Char :=
  subEngineF m l.length none l

/-- Exactly four ASCII digits (`\d{4}`): consume them, returning the rest. -/
def eatDigits4 : List Char → Option (List Char)
  | a :: b :: c :: d :: rest =>
    if a.isDigit && b.isDigit && c.isDigit && d.isDigit then some rest else none
  | _ => none

/-- `[\w\-]+ et al\., \d{4}` — one citation unit inside a bracketed group. -/
def eatCiteUnit (l : List Char) : Option (List Char) :=
  let (n, r1) := eatRun (fun c => isWordC c || c == '-') l
  if n == 0 then none
  else
    match eatLitCS (toL " et al., ") r1 with
    | none => none
    | some r2 => eatDigits4 r2

/-- The group `(;\s*[\w\-]+ et al\., \d{4})*` followed by `\s*\]`: iterate
citation units as long as they parse; when an iteration fails the remaining
input must be `\s*\]`.  `fuel` bounds the loop (each iteration consumes at
least one character). -/
def bracketTail : Nat → List Char → Option (List Char)
  | 0, _ => none
  | fuel + 1, l =>
    match
      (match eatLitCS (toL ";") l with
       | none => none
       | some r1 =>
         let (_, r2) := eatRun isSpcB r1
         eatCiteUnit r2) with
    | some r => bracketTail fuel r
    | none =>
      let (_, r) := eatRun isSpcB l
      eatLitCS (toL "]") r

/-- Matcher for `\[\s*[\w\-]+ et al\., \d{4}(;\s*[\w\-]+ et al\., \d{4})*\s*\]`
(the bracketed-citation rule, `clean_text.py` line 96). -/
def mBracketCite (_ : Option Char) (l : List Char) : Option Nat :=
  match eatLitCS (toL "[") l with
  | none => none
  | some r1 =>
    let (_, r2) := eatRun isSpcB r1
    match eatCiteUnit r2 with
    | none => none
    | some r3 =>
      match bracketTail (r3.length + 1) r3 with
      | none => none
      | some r4 => some (l.length - r4.length)

/-- Matcher for `\b\w+ et al\.,? \d{4}\b` (the bare-citation rule,
`clean_text.py` line 97). -/
def mBareCite (prev : Option Char) (l : List Char) : Option Nat :=
  if !boundaryOk prev then none
  else
    let (n, r1) := eatRun isWordC l
    if n == 0 then none
    else
      match eatLitCS (toL " et al.") r1 with
      | none => none
      | some r2 =>
        let r3 := match r2 with
          | ',' :: rest => rest
          | _ => r2
        match eatLitCS (toL " ") r3 with
        | none => none
        | some r4 =>
          match eatDigits4 r4 with
          | none => none
          | some r5 => if afterWordBoundary r5 then some (l.length - r5.length) else none

/-- Matcher for `\b[A-Z][a-z]+ et al\.\b` (the lone-citation rule,
`clean_text.py` line 98).  The trailing `\b` follows the period, a
non-word character, so it requires a word character right after it. -/
def mSoloCite (prev : Option Char) (l : List Char) : Option Nat :=
  if !boundaryOk prev then none
  else
    match l with
    | [] => none
    | c :: rest =>
      if c.isUpper then
        let (n, r1) := eatRun Char.isLower rest
        if n == 0 then none
        else
          match eatLitCS (toL " et al.") r1 with
          | none => none
          | some r2 =>
            match r2 with
            | d :: _ => if isWordC d then some (l.length - r2.length) else none
            | [] => none
      else none

/-- Matcher for `http\S+|www\.\S+|doi:\S+` (`clean_text.py` line 101). -/
def mUrl (_ : Option Char) (l : List Char) : Option Nat :=
  let tail := fun (r : List Char) =>
    let (n, r2) := eatRun (fun c => !isSpcB c) r
    if n == 0 then none else some (l.length - r2.length)
  match eatLitCS (toL "http") l with
  | some r => tail r
  | none =>
    match eatLitCS (toL "www.") l with
    | some r => tail r
    | none =>
      match eatLitCS (toL "doi:") l with
      | some r => tail r
      | none => none

/-- Index of the last `'@'` in a list, if any. -/
def lastAtIndex (l : List Char) : Option Nat :=
  (l.foldl
    (fun (st : Nat × Option Nat) c =>
      (st.1 + 1, if c == '@' then some st.1 else st.2))
    (0, none)).2

/-- Matcher for `\S+@\S+` (`clean_text.py` line 102).  With the engine's
greedy backtracking the first `\S+` extends to the last `'@'` of the
non-space run that still leaves at least one non-space character after it,
and the whole run is consumed. -/
def mEmail (_ : Option Char) (l : List Char) : Option Nat :=
  match l with
  | [] => none
  | c :: _ =>
    if isSpcB c then none
    else
      let (n, _) := eatRun (fun c => !isSpcB c) l
      match lastAtIndex ((l.take n).take (n - 1)) with
      | some k => if 1 ≤ k then some n else none
      | none => none

/-- Matcher for `(Table|Figure|Fig\.)\s*\d+.*` (caption removal,
`clean_text.py` line 105): keyword, optional whitespace (which may span
newlines, since `\s` includes `\n`), at least one digit, then the rest of
the line (`.` does not match `\n`). -/
def mCaption (_ : Option Char) (l : List Char) : Option Nat :=
  let kw :=
    match eatLitCS (toL "Table") l with
    | some r => some r
    | none =>
      match eatLitCS (toL "Figure") l with
      | some r => some r
      | none => eatLitCS (toL "Fig.") l
  match kw with
  | none => none
  | some r1 =>
    let (_, r2) := eatRun isSpcB r1
    let (nd, r3) := eatRun Char.isDigit r2
    if nd == 0 then none
    else
      let (_, r4) := eatRun (fun c => !(c == '\n')) r3
      some (l.length - r4.length)

/-- Characters counted by `re.findall(r'[\d.±%]', line)`
(`clean_text.py` line 51). -/
def numCharB (c : Char) : Bool := c.isDigit || c == '.' || c == '±' || c == '%'

/-- `len(re.findall(r'[\d.±%]', line))`. -/
def numCount (l : List Char) : Nat := (l.filter numCharB).length

/-- The denominator `len(line) + 1e-6` of the digit-ratio computation,
modelled as an exact rational. -/
def ratioDenom (l : List Char) : ℚ := (l.length : ℚ) + 1 / 1000000

/-- `digit_ratio` of `remove_numeric_blocks` (`clean_text.py` line 51). -/
def digitFrac (l : List Char) : ℚ := (numCount l : ℚ) / ratioDenom l

/-- Character class `[\d.,]` (first token group of the numeric-line regex). -/
def numTok1 (c : Char) : Bool := c.isDigit || c == '.' || c == ','

/-- Character class `[\d.,%±]` (later token groups of the numeric-line regex). -/
def numTok2 (c : Char) : Bool := c.isDigit || c == '.' || c == ',' || c == '%' || c == '±'

/-- The tail `(\s+[\d.,%±]+)*\s*$` of the numeric-line regex.  `fuel` bounds
the loop; each iteration consumes at least one character. -/
def numRegexTail : Nat → List Char → Bool
  | 0, _ => false
  | fuel + 1, l =>
    let (ns, r) := eatRun isSpcB l
    if r.isEmpty then true
    else if ns == 0 then false
    else
      let (n2, r2) := eatRun numTok2 r
      if n2 == 0 then false else numRegexTail fuel r2

/-- `re.match(r'^\s*[\d.,]+(\s+[\d.,%±]+)*\s*$', line)` as a Bool
(`clean_text.py` line 52). -/
def numRegexMatch (l : List Char) : Bool :=
  let (_, r1) := eatRun isSpcB l
  let (n1, r2) := eatRun numTok1 r1
  if n1 == 0 then false else numRegexTail (r2.length + 1) r2

/-- The test `digit_ratio > 0.5` of `clean_text.py` line 52, as an integer
comparison: `count / (len + 1e-6) > 0.5` holds iff `len < 2 * count`.  The
equivalence with the literal rational translation `digitFrac` is proved in
`digitFrac_gt_half_iff`; the IEEE-double computation agrees with both, as
the two sides of the comparison can only tie when `2 * count = len`, where
all three yield `false`. -/
def digitRatioGtHalf (l : List Char) : Bool :=
  decide (l.length < 2 * numCount l)

/-- A "numeric-like" line: digit ratio above one half, or a full match of
the numeric-line regex (`clean_text.py` line 52). -/
def numericLike (l : List Char) : Bool :=
  digitRatioGtHalf l || numRegexMatch l

/-- The integer test of `digitRatioGtHalf` agrees with the rational
digit-ratio comparison of the source. -/
theorem digitFrac_gt_half_iff (l : List Char) :
    digitFrac l > 1 / 2 ↔ l.length < 2 * numCount l := by
  have hpos : (0 : ℚ) < ratioDenom l := by
    unfold ratioDenom
    positivity
  unfold digitFrac
  rw [gt_iff_lt, lt_div_iff₀ hpos]
  unfold ratioDenom
  constructor
  · intro h
    have h2 : (l.length : ℚ) < 2 * (numCount l : ℚ) := by linarith
    exact_mod_cast h2
  · intro h
    have h2 : (l.length : ℚ) + 1 ≤ 2 * (numCount l : ℚ) := by exact_mod_cast h
    linarith

/-- The loop of `remove_numeric_blocks` (`clean_text.py` lines 50-60): the
counter of consecutive numeric-like lines is updated for each line, lines
with counter at least 3 are skipped by `continue`, and a line is appended
only when the counter is 0. -/
def numericLoop : Nat → List (List Char) → List (List Char)
  | _, [] => []
  | k, line :: rest =>
    let k' := if numericLike line then k + 1 else 0
    if 3 ≤ k' then numericLoop k' rest
    else if k' == 0 then line :: numericLoop k' rest
    else numericLoop k' rest

/-- `remove_numeric_blocks` (`clean_text.py` lines 46-61). -/
def remove_numeric_blocks (l : List Char) : List Char :=
  joinNl (numericLoop 0 (splitNl l))

/-- `re.findall(r'\s{3,}', line)` is non-empty iff the line contains three
consecutive whitespace characters. -/
def hasWsRun3 : List Char → Bool
  | a :: b :: c :: rest => (isSpcB a && isSpcB b && isSpcB c) || hasWsRun3 (b :: c :: rest)
  | _ => false

/-- `line.count('\t')`. -/
def tabCount (l : List Char) : Nat := (l.filter (fun c => c == '\t')).length

/-- The drop condition of `remove_tabular_blocks` (`clean_text.py` line 69). -/
def tabularDrop (l : List Char) : Bool := hasWsRun3 l || decide (2 ≤ tabCount l)

/-- The loop of `remove_tabular_blocks` (`clean_text.py` lines 65-71). -/
def tabularLoop : List (List Char) → List (List Char)
  | [] => []
  | line :: rest => if tabularDrop line then tabularLoop rest else line :: tabularLoop rest

/-- `remove_tabular_blocks` (`clean_text.py` lines 64-72). -/
def remove_tabular_blocks (l : List Char) : List Char :=
  joinNl (tabularLoop (splitNl l))

/-- Matcher for `\bPage \d+(\s+of \d+)?\b` with `re.IGNORECASE`
(`clean_text.py` line 76).  The optional group is tried greedily; if it
parses but its trailing `\b` fails, the engine backtracks to the group-free
reading, whose `\b` after the digits then looks at the following
whitespace. -/
def mPage (prev : Option Char) (l : List Char) : Option Nat :=
  if !boundaryOk prev then none
  else
    match eatLitCI (toL "page ") l with
    | none => none
    | some r1 =>
      let (n1, r2) := eatRun Char.isDigit r1
      if n1 == 0 then none
      else
        let withGroup : Option (List Char) :=
          let (ns, r3) := eatRun isSpcB r2
          if ns == 0 then none
          else
            match eatLitCI (toL "of ") r3 with
            | none => none
            | some r4 =>
              let (n2, r5) := eatRun Char.isDigit r4
              if n2 == 0 then none
              else if afterWordBoundary r5 then some r5 else none
        match withGroup with
        | some r5 => some (l.length - r5.length)
        | none => if afterWordBoundary r2 then some (l.length - r2.length) else none

/-- Matcher for a plain literal pattern (no metacharacters), case-sensitive. -/
def mLitOnly (pat : List Char) (_ : Option Char) (l : List Char) : Option Nat :=
  match eatLitCS pat l with
  | some r => some (l.length - r.length)
  | none => none

/-- Matcher for `LITERAL.*?\n` patterns: the literal (case-sensitive or
case-insensitive per `ci`), then the remainder of the line, then the
newline itself, all consumed.  Without a final newline there is no match
(`.` does not match `\n` and the pattern requires one). -/
def mLitRestNl (ci : Bool) (pat : List Char) (_ : Option Char) (l : List Char) : Option Nat :=
  match (if ci then eatLitCI pat l else eatLitCS pat l) with
  | none => none
  | some r1 =>
    let (_, r2) := eatRun (fun c => !(c == '\n')) r1
    match r2 with
    | '\n' :: r3 => some (l.length - r3.length)
    | _ => none

/-- Character class `[\s\.\-—_]` of the punctuation-line pattern
(`clean_text.py` line 85). -/
def isPunctClass (c : Char) : Bool :=
  isSpcB c || c == '.' || c == '-' || c == '—' || c == '_'

/-- `^` with `re.MULTILINE`: start of text or right after a newline. -/
def bolOk (prev : Option Char) : Bool :=
  match prev with
  | none => true
  | some c => c == '\n'

/-- Backtracking for `$` in `^[\s\.\-—_]{3,}$` (MULTILINE): starting from
the maximal class run, find the largest length `k ≥ 3` whose following
character is a newline. -/
def punctBT (l : List Char) : Nat → Option Nat
  | 0 => none
  | k + 1 =>
    if k + 1 < 3 then none
    else if l.getD (k + 1) 'x' == '\n' then some (k + 1)
    else punctBT l k

/-- Matcher for `^[\s\.\-—_]{3,}$` with `re.MULTILINE`
(`clean_text.py` line 85).  Note `\s` includes `\n`, so the run may span
several lines; `$` holds at end of text or before a newline. -/
def mPunct (prev : Option Char) (l : List Char) : Option Nat :=
  if !bolOk prev then none
  else
    let (m, r) := eatRun isPunctClass l
    if m < 3 then none
    else if r.isEmpty then some m
    else punctBT l m

/-- `remove_headers_footers` (`clean_text.py` lines 75-86): the ten
substitutions in source order. -/
def remove_headers_footers (l : List Char) : List Char :=
  let t1 := runSub mPage l
  let t2 := runSub (mLitOnly (toL "NIH-PA Author Manuscript")) t1
  let t3 := runSub (mLitRestNl false (toL "Author manuscript; available in PMC")) t2
  let t4 := runSub (mLitRestNl false (toL "J Autism Dev Disord")) t3
  let t5 := runSub (mLitRestNl true (toL "bioRxiv")) t4
  let t6 := runSub (mLitRestNl true (toL "medRxiv")) t5
  let t7 := runSub (mLitRestNl true (toL "Scientific Reports")) t6
  let t8 := runSub (mLitRestNl true (toL "Copyright")) t7
  let t9 := runSub (mLitRestNl true (toL "All rights reserved")) t8
  runSub mPunct t9

/-- Does `\babstract\b` (IGNORECASE) match at the head of `l`, given the
previous character? -/
def abstractAt (prev : Option Char) (l : List Char) : Bool :=
  boundaryOk prev &&
    (match eatLitCI (toL "abstract") l with
     | some r => afterWordBoundary r
     | none => false)

/-- Scan for the first position where `\babstract\b` matches
(`re.search(r'\babstract\b', text, re.IGNORECASE)`, `clean_text.py` line 21). -/
def searchAbstractAux : Option Char → List Char → Option Nat
  | _, [] => none
  | prev, c :: cs =>
    if abstractAt prev (c :: cs) then some 0
    else (searchAbstractAux (some c) cs).map (· + 1)

/-- Start index of the first match of `\babstract\b` (IGNORECASE). -/
def searchAbstract (l : List Char) : Option Nat := searchAbstractAux none l

/-- Does `\b(1\.\s*)?introduction\b` (IGNORECASE) match at the head of `l`?
The optional numbering group is tried first (greedy `?`). -/
def introAt (prev : Option Char) (l : List Char) : Bool :=
  boundaryOk prev &&
    ((match
        (match eatLitCS (toL "1.") l with
         | none => none
         | some r1 =>
           let (_, r2) := eatRun isSpcB r1
           eatLitCI (toL "introduction") r2) with
      | some r => afterWordBoundary r
      | none => false)
     ||
     (match eatLitCI (toL "introduction") l with
      | some r => afterWordBoundary r
      | none => false))

/-- Scan for the first position where `\b(1\.\s*)?introduction\b` matches
(`clean_text.py` line 26). -/
def searchIntroAux : Option Char → List Char → Option Nat
  | _, [] => none
  | prev, c :: cs =>
    if introAt prev (c :: cs) then some 0
    else (searchIntroAux (some c) cs).map (· + 1)

/-- Start index of the first match of `\b(1\.\s*)?introduction\b` (IGNORECASE). -/
def searchIntro (l : List Char) : Option Nat := searchIntroAux none l

/-- `find_main_start` (`clean_text.py` lines 19-31): the suffix from the
first match of "abstract", else from the first match of "introduction"
(optionally numbered), else the text from offset 1000 on (Python slicing
`text[1000:]`, which is empty when the text is shorter). -/
def find_main_start (l : List Char) : List Char :=
  match searchAbstract l with
  | some i => l.drop i
  | none =>
    match searchIntro l with
    | some i => l.drop i
    | none => l.drop 1000

/-- Does one of the stop words "references", "acknowledgements", "appendix"
match at the head of `l` as a whole word (IGNORECASE)? -/
def stopTokenAt (prev : Option Char) (l : List Char) : Bool :=
  let chk := fun (w : List Char) =>
    match eatLitCI w l with
    | some r => afterWordBoundary r
    | none => false
  boundaryOk prev &&
    (chk (toL "references") || chk (toL "acknowledgements") || chk (toL "appendix"))

/-- Matcher for `(?i)\b(references|acknowledgements|appendix)\b.*` with
`re.DOTALL` (`clean_text.py` line 93): at a match, `.*` consumes every
remaining character. -/
def mTrunc (prev : Option Char) (l : List Char) : Option Nat :=
  if stopTokenAt prev l then some l.length else none

/-- The trailing-section truncation substitution (`clean_text.py` line 93). -/
def truncate_trailing_sections (l : List Char) : List Char := runSub mTrunc l

/-- Line-boundary characters of Python `str.splitlines`. -/
def isLineBoundary (c : Char) : Bool :=
  c == '\n' || c == '\r' || c == '\x0b' || c == '\x0c' ||
  c == '\x1c' || c == '\x1d' || c == '\x1e' || c == '\x85' ||
  c == '\u2028' || c == '\u2029'

/-- Worker for `str.splitlines`: `cur` is the current line, reversed. -/
def slAux (cur : List Char) : List Char → List (List Char)
  | [] => [cur.reverse]
  | '\r' :: '\n' :: rest =>
    cur.reverse :: (if rest.isEmpty then [] else slAux [] rest)
  | c :: rest =>
    if isLineBoundary c then cur.reverse :: (if rest.isEmpty then [] else slAux [] rest)
    else slAux (c :: cur) rest

/-- Python `text.splitlines()`: a trailing terminator produces no empty
final line, and the empty string has no lines. -/
def pySplitlines (l : List Char) : List (List Char) :=
  if l.isEmpty then [] else slAux [] l

/-- The duplicate-line loop of `clean_text` (`clean_text.py` lines 117-124):
a line is kept iff its stripped form differs from the stripped form of the
immediately preceding original line (initially the empty string). -/
def dedupAux (prev : List Char) : List (List Char) → List (List Char)
  | [] => []
  | line :: rest =>
    if pyStrip line == pyStrip prev then dedupAux line rest
    else line :: dedupAux line rest

/-- The consecutive-duplicate-line removal stage of `clean_text`. -/
def dedupLines (l : List Char) : List Char :=
  joinNl (dedupAux [] (pySplitlines l))

/-- Replacement for a pending run of `k` newlines: `re.sub(r'\n{3,}', '\n\n', ...)`
turns a maximal run of at least 3 newlines into exactly two. -/
def flushNl (k : Nat) : List Char :=
  if 3 ≤ k then ['\n', '\n'] else List.replicate k '\n'

/-- Worker for the newline-collapsing substitution: `k` counts the pending
run of newlines. -/
def collapseNlAux : Nat → List Char → List Char
  | k, [] => flushNl k
  | k, c :: cs =>
    if c == '\n' then collapseNlAux (k + 1) cs
    else flushNl k ++ c :: collapseNlAux 0 cs

/-- `re.sub(r'\n{3,}', '\n\n', text)` (`clean_text.py` line 127). -/
def collapseNl (l : List Char) : List Char := collapseNlAux 0 l

/-- Replacement for a pending run of horizontal whitespace:
`re.sub(r'[ \t]{2,}', ' ', ...)` turns a maximal run of at least 2 into a
single space, and leaves a single character unchanged. -/
def flushHws (pend : List Char) : List Char :=
  if 2 ≤ pend.length then [' '] else pend

/-- Worker for the horizontal-whitespace-collapsing substitution: `pend` is
the pending run of `[ \t]` characters, in order. -/
def collapseHwsAux : List Char → List Char → List Char
  | pend, [] => flushHws pend
  | pend, c :: cs =>
    if isHwsB c then collapseHwsAux (pend ++ [c]) cs
    else flushHws pend ++ c :: collapseHwsAux [] cs

/-- `re.sub(r'[ \t]{2,}', ' ', text)` (`clean_text.py` line 128). -/
def collapseHws (l : List Char) : List Char := collapseHwsAux [] l

/-- The NoiseFilters sequence of `clean_text` (`clean_text.py` lines
95-130): citation removal, URL/DOI/email removal, caption removal, numeric
blocks, tabular blocks, headers and footers, consecutive-duplicate-line
removal, whitespace collapsing and the final `strip()`. -/
def noise_filters (l : List Char) : List Char :=
  let t1 := runSub mBracketCite l
  let t2 := runSub mBareCite t1
  let t3 := runSub mSoloCite t2
  let t4 := runSub mUrl t3
  let t5 := runSub mEmail t4
  let t6 := runSub mCaption t5
  let t7 := remove_numeric_blocks t6
  let t8 := remove_tabular_blocks t7
  let t9 := remove_headers_footers t8
  let t10 := dedupLines t9
  let t11 := collapseNl t10
  let t12 := collapseHws t11
  pyStrip t12

/-- The bracketed-citation substitution (`clean_text.py` line 96). -/
def cite_sub1 (l : List Char) : List Char := runSub mBracketCite l

/-- The bare-citation substitution (`clean_text.py` line 97). -/
def cite_sub2 (l : List Char) : List Char := runSub mBareCite l

/-- `clean_text` (`clean_text.py` lines 89-130): head truncation, trailing
truncation, then the noise-filter sequence. -/
def clean_text (l : List Char) : List Char :=
  noise_filters (truncate_trailing_sections (find_main_start l))

/-- The per-page check loop of `is_image_based_pdf`: `False` as soon as a
page has non-whitespace text, else `True`. -/
def imageLoop : List (List Char) → Bool
  | [] => true
  | p :: ps => if (pyStrip p).isEmpty then imageLoop ps else false

/-- `is_image_based_pdf` (`clean_text.py` lines 8-14): a document is a list
of page texts; the loop inspects the first `min(len(doc), check_pages)`
pages. -/
def is_image_based_pdf (doc : List (List Char)) (check_pages : Nat) : Bool :=
  imageLoop (doc.take (min doc.length check_pages))

/-- The raw text built by `extract_clean_text_from_pdf`
(`clean_text.py` lines 136-142): page texts collected in order and joined
with `"\n"`. -/
def extract_raw_text (pages : List (List Char)) : List Char := joinNl pages

/-- `extract_clean_text_from_pdf` (`clean_text.py` lines 134-143), with the
document already abstracted to its ordered list of page texts. -/
def extract_clean_text_from_pdf (pages : List (List Char)) : List Char :=
  clean_text (extract_raw_text pages)

/-- A PDF document as seen by the batch loop: whether `fitz.open` succeeds,
and the ordered page texts when it does. -/
structure PdfDoc where
  readable : Bool
  pages : List (List Char)

/-- The `__main__` batch loop (`clean_text.py` lines 172-180), for
text-based documents.  There is no `try`/`except` around the per-document
work, so an exception raised while opening or processing one document
propagates and aborts the whole loop; this is modelled by `Except` with no
handler.  On success the list of cleaned texts is returned in order. -/
def processBatch : List PdfDoc → Except String (List (List Char))
  | [] => .ok []
  | d :: ds =>
    if d.readable then
      match processBatch ds with
      | .ok rest => .ok (extract_clean_text_from_pdf d.pages :: rest)
      | .error e => .error e
    else .error "DocumentUnreadable"

/-! ### Lemmas about line splitting and joining -/

theorem splitNl_ne_nil (l : List Char) : splitNl l ≠ [] := by
  induction l with
  | nil => simp [splitNl]
  | cons c cs ih =>
    simp only [splitNl]
    split
    · simp
    · cases h : splitNl cs with
      | nil => exact absurd h ih
      | cons g gs => simp

theorem mem_splitNl_no_nl (l : List Char) : ∀ p ∈ splitNl l, '\n' ∉ p := by
  induction l with
  | nil => intro p hp; simp [splitNl] at hp; simp [hp]
  | cons c cs ih =>
    intro p hp
    simp only [splitNl] at hp
    by_cases hc : c = '\n'
    · simp [hc] at hp
      rcases hp with h | h
      · simp [h]
      · exact ih p h
    · simp [hc] at hp
      cases hsp : splitNl cs with
      | nil => exact absurd hsp (splitNl_ne_nil cs)
      | cons g gs =>
        rw [hsp] at hp
        simp at hp
        rcases hp with h | h
        · subst h
          intro hmem
          rcases List.mem_cons.mp hmem with h1 | h1
          · exact hc h1.symm
          · exact ih g (by simp [hsp]) h1
        · exact ih p (by simp [hsp, h])

theorem splitNl_cons_nl (cs : List Char) : splitNl ('\n' :: cs) = [] :: splitNl cs := by
  simp [splitNl]

theorem splitNl_cons_ne {c : Char} (hc : c ≠ '\n') (cs : List Char) :
    splitNl (c :: cs) =
      match splitNl cs with
      | g :: gs => (c :: g) :: gs
      | [] => [[c]] := by
  simp [splitNl, hc]

theorem splitNl_append_cons {p : List Char} (hp : '\n' ∉ p) (rest : List Char) :
    splitNl (p ++ '\n' :: rest) = p :: splitNl rest := by
  induction p with
  | nil => simp [splitNl_cons_nl]
  | cons c cs ih =>
    have hc : c ≠ '\n' := by intro h; exact hp (by simp [h])
    have hcs : '\n' ∉ cs := by intro h; exact hp (by simp [h])
    rw [List.cons_append, splitNl_cons_ne hc, ih hcs]

theorem splitNl_no_nl {p : List Char} (hp : '\n' ∉ p) : splitNl p = [p] := by
  induction p with
  | nil => rfl
  | cons c cs ih =>
    have hc : c ≠ '\n' := by intro h; exact hp (by simp [h])
    have hcs : '\n' ∉ cs := by intro h; exact hp (by simp [h])
    rw [splitNl_cons_ne hc, ih hcs]

theorem splitNl_joinNl {ps : List (List Char)} (hnl : ∀ p ∈ ps, '\n' ∉ p)
    (hne : ps ≠ []) : splitNl (joinNl ps) = ps := by
  induction ps with
  | nil => exact absurd rfl hne
  | cons p rest ih =>
    cases rest with
    | nil => exact splitNl_no_nl (hnl p (by simp))
    | cons q qs =>
      have h1 : joinNl (p :: q :: qs) = p ++ '\n' :: joinNl (q :: qs) := rfl
      rw [h1, splitNl_append_cons (hnl p (by simp)),
        ih (fun r hr => hnl r (by simp [hr])) (by simp)]

/-! ### The numeric-block and tabular-block loops are filters on lines -/

theorem numericLoop_eq_filter (ls : List (List Char)) :
    ∀ k, numericLoop k ls = ls.filter (fun l => !numericLike l) := by
  induction ls with
  | nil => intro k; rfl
  | cons line rest ih =>
    intro k
    by_cases h : numericLike line
    · by_cases h3 : 3 ≤ k + 1
      · simp [numericLoop, h, h3, ih, List.filter_cons]
      · simp [numericLoop, h, h3, ih, List.filter_cons]
    · simp [numericLoop, h, ih, List.filter_cons]

theorem tabularLoop_eq_filter (ls : List (List Char)) :
    tabularLoop ls = ls.filter (fun l => !tabularDrop l) := by
  induction ls with
  | nil => rfl
  | cons line rest ih =>
    by_cases h : tabularDrop line
    · simp [tabularLoop, h, ih]
    · simp [tabularLoop, h, ih]

theorem remove_numeric_blocks_eq (l : List Char) :
    remove_numeric_blocks l = joinNl ((splitNl l).filter (fun p => !numericLike p)) := by
  unfold remove_numeric_blocks
  rw [numericLoop_eq_filter]

theorem remove_tabular_blocks_eq (l : List Char) :
    remove_tabular_blocks l = joinNl ((splitNl l).filter (fun p => !tabularDrop p)) := by
  unfold remove_tabular_blocks
  rw [tabularLoop_eq_filter]

/-- A join of filtered lines re-splits to the filtered lines, so a second
filtering pass changes nothing: the common idempotence argument for the two
line-level suppression filters.  `hq` says the empty line is kept. -/
theorem filter_join_split_idem (q : List Char → Bool) (hq : q [] = true) (l : List Char) :
    joinNl ((splitNl (joinNl ((splitNl l).filter q))).filter q) =
      joinNl ((splitNl l).filter q) := by
  cases hf : (splitNl l).filter q with
  | nil =>
    have h0 : joinNl ([] : List (List Char)) = [] := rfl
    rw [h0]
    have h1 : splitNl ([] : List Char) = [[]] := rfl
    rw [h1]
    simp [List.filter_cons, hq]
    rfl
  | cons g gs =>
    have hmem : ∀ p ∈ g :: gs, '\n' ∉ p := by
      intro p hp
      exact mem_splitNl_no_nl l p (List.mem_of_mem_filter (hf ▸ hp))
    rw [← hf, splitNl_joinNl (hf ▸ hmem) (by simp [hf]), List.filter_filter]
    simp

/-! ### Claim C1: numeric-block suppression -/

/-- C1 counterexample: a maximal run of exactly one numeric-like line
("1.0 2.0") is NOT kept: `remove_numeric_blocks` drops it, because the
loop appends a line only when the consecutive-numeric counter is 0. -/
theorem C1_counterexample :
    remove_numeric_blocks (toL "a\n1.0 2.0\nb") = toL "a\nb" ∧
      toL "1.0 2.0" ∉ splitNl (remove_numeric_blocks (toL "a\n1.0 2.0\nb")) := by
  constructor
  · decide
  · decide

/-- C1 (amended): `remove_numeric_blocks` keeps exactly the lines that are
not numeric-like, in order: every numeric-like line is removed regardless
of run length — runs of length 1 or 2 are removed entirely, just like runs
of length 3 or more. -/
theorem C1_theorem (t : List Char) :
    remove_numeric_blocks t = joinNl ((splitNl t).filter (fun p => !numericLike p)) :=
  remove_numeric_blocks_eq t

/-! ### Claim C2: per-document error isolation in the batch loop -/

/-- C2: the `__main__` batch loop has no per-document exception handler, so
an unreadable first document aborts the batch and the readable sibling
document is never processed, although the sibling alone processes fine. -/
theorem C2_theorem :
    processBatch [⟨false, []⟩, ⟨true, [toL "hello"]⟩] = .error "DocumentUnreadable" ∧
      processBatch [⟨true, [toL "hello"]⟩] = .ok [[]] :=
  ⟨rfl, rfl⟩

/-! ### Claim C3: find_main_start fallback on short input -/

/-- C3 counterexample: on "hi" (no "abstract", no "introduction"),
`find_main_start` returns the empty string, not the whole text: Python
`text[1000:]` on a short string is empty. -/
theorem C3_counterexample :
    find_main_start (toL "hi") = [] ∧ toL "hi" ≠ ([] : List Char) := by
  constructor
  · decide
  · decide

/-- C3 (amended): with no match of "abstract" and no match of
"introduction", `find_main_start` returns the substring from offset 1000,
which is the empty string — not the whole text — whenever the text is
shorter than 1000 characters; it is total, so it never raises. -/
theorem C3_theorem (t : List Char) (h1 : searchAbstract t = none)
    (h2 : searchIntro t = none) :
    find_main_start t = t.drop 1000 ∧ (t.length < 1000 → find_main_start t = []) := by
  have he : find_main_start t = t.drop 1000 := by
    unfold find_main_start
    rw [h1, h2]
  refine ⟨he, fun hl => ?_⟩
  rw [he]
  exact List.drop_eq_nil_of_le (by omega)

/-- C3 witness: the amended fallback behaviour at the concrete input "hi". -/
theorem C3_witness :
    searchAbstract (toL "hi") = none ∧ searchIntro (toL "hi") = none ∧
      find_main_start (toL "hi") = [] :=
  ⟨by decide, by decide, (C3_theorem (toL "hi") (by decide) (by decide)).2 (by decide)⟩

/-! ### Claim C4: raw-text construction from page texts -/

/-- C4 counterexample: `extract_clean_text_from_pdf` joins page texts with
a single newline (`"\n".join`), not with a blank line. -/
theorem C4_counterexample :
    extract_raw_text [toL "a", toL "b"] = toL "a\nb" ∧
      toL "a\nb" ≠ toL "a\n\nb" := by
  constructor
  · decide
  · decide

/-- C4 (amended): the raw text is the ordered concatenation of all page
texts separated by a single newline; splitting it on the separator
recovers every page in order — no page is dropped even when empty. -/
theorem C4_theorem (pages : List (List Char)) (hne : pages ≠ [])
    (hnl : ∀ p ∈ pages, '\n' ∉ p) :
    splitNl (extract_raw_text pages) = pages :=
  splitNl_joinNl hnl hne

/-- C4 witness: three pages, the middle one empty, are all recovered. -/
theorem C4_witness :
    ([toL "a", [], toL "b"] : List (List Char)) ≠ [] ∧
      (∀ p ∈ ([toL "a", [], toL "b"] : List (List Char)), '\n' ∉ p) ∧
      splitNl (extract_raw_text [toL "a", [], toL "b"]) = [toL "a", [], toL "b"] :=
  ⟨by decide, by decide, C4_theorem [toL "a", [], toL "b"] (by decide) (by decide)⟩

/-! ### Claim C6: idempotence of the noise-filter sequence -/

/-- C6 counterexample: the full noise-filter sequence is not idempotent.
Header removal turns "Page 3 1.5 2.5" into " 1.5 2.5", which only a second
pass of numeric-block suppression removes. -/
theorem C6_counterexample :
    noise_filters (toL "keep this line\nPage 3 1.5 2.5\nkeep this too") =
        toL "keep this line\n 1.5 2.5\nkeep this too" ∧
      noise_filters (noise_filters (toL "keep this line\nPage 3 1.5 2.5\nkeep this too")) =
        toL "keep this line\nkeep this too" ∧
      noise_filters (noise_filters (toL "keep this line\nPage 3 1.5 2.5\nkeep this too")) ≠
        noise_filters (toL "keep this line\nPage 3 1.5 2.5\nkeep this too") := by
  refine ⟨by decide, by decide, by decide⟩

/-- C6 (amended): the two line-level suppression filters are individually
idempotent — applying `remove_numeric_blocks` or `remove_tabular_blocks`
twice equals applying it once — but the full ordered sequence is not,
since a later filter can expose new numeric-like lines. -/
theorem C6_theorem (t : List Char) :
    remove_numeric_blocks (remove_numeric_blocks t) = remove_numeric_blocks t ∧
      remove_tabular_blocks (remove_tabular_blocks t) = remove_tabular_blocks t := by
  constructor
  · rw [remove_numeric_blocks_eq t, remove_numeric_blocks_eq]
    exact filter_join_split_idem _ (by decide) t
  · rw [remove_tabular_blocks_eq t, remove_tabular_blocks_eq]
    exact filter_join_split_idem _ (by decide) t

/-! ### Claim C8: citation-removal regex semantics -/

/-- C8 counterexample: after the bracketed and bare citation rules, the
input leaves "as shown () the effect..." — both parentheses remain — not
"as shown ( the effect..." as claimed. -/
theorem C8_counterexample :
    cite_sub2 (cite_sub1 (toL "as shown (Smith et al., 2020) the effect...")) =
        toL "as shown () the effect..." ∧
      toL "as shown () the effect..." ≠ toL "as shown ( the effect..." := by
  constructor
  · decide
  · decide

/-- C8 (amended): the bracketed rule does not touch the parenthesized
citation at all; the bare `et al., YEAR` rule then removes exactly
"Smith et al., 2020", leaving "as shown () the effect...". -/
theorem C8_theorem :
    cite_sub1 (toL "as shown (Smith et al., 2020) the effect...") =
        toL "as shown (Smith et al., 2020) the effect..." ∧
      cite_sub2 (cite_sub1 (toL "as shown (Smith et al., 2020) the effect...")) =
        toL "as shown () the effect..." := by
  constructor
  · decide
  · decide

/-! ### Claim C10: totality and the digit-ratio denominator -/

/-- C10: the digit-ratio denominator `len(line) + 1e-6` is positive for
every line (so the division never divides by zero, in particular on the
empty line), and the cleaning functions are total — evaluated here on the
empty string and on a short string, they return without raising. -/
theorem C10_theorem :
    (∀ line : List Char, 0 < ratioDenom line) ∧
      remove_numeric_blocks (toL "") = toL "" ∧
      clean_text (toL "") = toL "" ∧
      clean_text (toL "hi") = toL "" := by
  refine ⟨fun line => ?_, by decide, by decide, by decide⟩
  unfold ratioDenom
  positivity

/-! ### Claim C7: image-based classification -/

theorem mem_dropWhile_all {p : Char → Bool} {l : List Char}
    (h : ∀ c ∈ l.dropWhile p, p c = true) : ∀ c ∈ l, p c = true := by
  intro c hc
  rw [← List.takeWhile_append_dropWhile (p := p) (l := l)] at hc
  rcases List.mem_append.mp hc with h1 | h1
  · exact List.mem_takeWhile_imp h1
  · exact h c h1

theorem pyStrip_eq_nil_iff (l : List Char) :
    pyStrip l = [] ↔ ∀ c ∈ l, isSpcB c = true := by
  unfold pyStrip lstripW
  rw [List.reverse_eq_nil_iff, List.dropWhile_eq_nil_iff]
  constructor
  · intro h
    refine mem_dropWhile_all (fun c hc => ?_)
    exact h c (List.mem_reverse.mpr hc)
  · intro h c hc
    exact h c ((List.dropWhile_suffix isSpcB).sublist.mem (List.mem_reverse.mp hc))

theorem imageLoop_eq_true_iff (ps : List (List Char)) :
    imageLoop ps = true ↔ ∀ p ∈ ps, pyStrip p = [] := by
  induction ps with
  | nil => simp [imageLoop]
  | cons p rest ih =>
    by_cases h : (pyStrip p).isEmpty
    · simp [imageLoop, h, ih, List.isEmpty_iff.mp h]
    · simp [imageLoop, h]
      intro hp
      exact absurd (List.isEmpty_iff.mpr hp) h

theorem take_min_length (doc : List (List Char)) (K : Nat) :
    doc.take (min doc.length K) = doc.take K := by
  rcases le_total doc.length K with h | h
  · rw [min_eq_left h, List.take_length, List.take_of_length_le h]
  · rw [min_eq_right h]

/-- C7: `is_image_based_pdf doc K` inspects the first `min(len(doc), K)`
pages and returns `true` iff every inspected page's text is empty or
whitespace-only; equivalently, any non-whitespace character among the
first K pages makes the result `false`. -/
theorem C7_theorem (doc : List (List Char)) (K : Nat) :
    is_image_based_pdf doc K = true ↔ ∀ p ∈ doc.take K, ∀ c ∈ p, isSpcB c = true := by
  unfold is_image_based_pdf
  rw [take_min_length, imageLoop_eq_true_iff]
  exact forall₂_congr (fun p _ => pyStrip_eq_nil_iff p)

/-! ### Claim C9: trailing-section truncation -/

/-- Spec-side reading of the truncation: the index of the first position
at which a standalone stop word ("references", "acknowledgements",
"appendix", case-insensitive) occurs. -/
def firstStopAux : Option Char → List Char → Option Nat
  | _, [] => none
  | prev, c :: cs =>
    if stopTokenAt prev (c :: cs) then some 0
    else (firstStopAux (some c) cs).map (· + 1)

/-- Index of the first stop-word occurrence of the trailing-truncation rule. -/
def firstStopIdx (l : List Char) : Option Nat := firstStopAux none l

theorem subEngineF_nil (m : Option Char → List Char → Option Nat)
    (fuel : Nat) (prev : Option Char) : subEngineF m fuel prev [] = [] := by
  cases fuel <;> rfl

theorem truncScan_eq (l : List Char) : ∀ fuel : Nat, ∀ prev : Option Char,
    l.length ≤ fuel →
    subEngineF mTrunc fuel prev l = l.take ((firstStopAux prev l).getD l.length) := by
  induction l with
  | nil =>
    intro fuel prev _
    rw [subEngineF_nil]
    simp
  | cons c cs ih =>
    intro fuel prev h
    cases fuel with
    | zero => simp at h
    | succ f =>
      by_cases hstop : stopTokenAt prev (c :: cs)
      · have hm : mTrunc prev (c :: cs) = some (cs.length + 1) := by
          unfold mTrunc
          rw [if_pos hstop]
          rfl
        simp [subEngineF, hm, firstStopAux, hstop, subEngineF_nil, List.drop_length]
      · have hm : mTrunc prev (c :: cs) = none := by
          unfold mTrunc
          rw [if_neg hstop]
        have hle : cs.length ≤ f := by
          simp only [List.length_cons] at h
          omega
        simp only [subEngineF, hm, firstStopAux, hstop, if_false]
        rw [ih f (some c) hle]
        cases hfs : firstStopAux (some c) cs with
        | none => simp [hfs]
        | some i => simp [hfs]

/-- C9: `truncate_trailing_sections` removes everything from the first
case-insensitive whole-word occurrence of "references", "acknowledgements"
or "appendix" through the end of the text, including the matched token
(the output is the prefix before that occurrence); `clean_text` applies
this truncation to the text already head-truncated by `find_main_start`;
and on the spec's example everything from "References" onward is removed. -/
theorem C9_theorem :
    (∀ t : List Char,
        truncate_trailing_sections t = t.take ((firstStopIdx t).getD t.length)) ∧
      (∀ t : List Char,
        clean_text t = noise_filters (truncate_trailing_sections (find_main_start t))) ∧
      truncate_trailing_sections (toL "body text References [1] Smith 2020") =
        toL "body text " := by
  refine ⟨fun t => ?_, fun t => rfl, by decide⟩
  unfold truncate_trailing_sections runSub firstStopIdx
  exact truncScan_eq t t.length none (le_refl _)

/-! ### Claim C5: invariants of the final whitespace normalization -/

/-- No two consecutive characters both satisfy `p`. -/
def noRun2 (p : Char → Bool) : List Char → Bool
  | a :: b :: rest => !(p a && p b) && noRun2 p (b :: rest)
  | _ => true

/-- No three consecutive characters all satisfy `p`. -/
def noRun3 (p : Char → Bool) : List Char → Bool
  | a :: b :: c :: rest => !(p a && p b && p c) && noRun3 p (b :: c :: rest)
  | _ => true

theorem noRun2_tail {p : Char → Bool} {x : Char} {l : List Char}
    (h : noRun2 p (x :: l) = true) : noRun2 p l = true := by
  cases l with
  | nil => rfl
  | cons b r =>
    rw [noRun2] at h
    exact (Bool.and_eq_true _ _ |>.mp h).2

theorem noRun3_tail {p : Char → Bool} {x : Char} {l : List Char}
    (h : noRun3 p (x :: l) = true) : noRun3 p l = true := by
  cases l with
  | nil => rfl
  | cons b r =>
    cases r with
    | nil => rfl
    | cons c r2 =>
      rw [noRun3] at h
      exact (Bool.and_eq_true _ _ |>.mp h).2

theorem noRun2_cons_of_not {p : Char → Bool} {x : Char} {l : List Char}
    (hx : p x = false) (h : noRun2 p l = true) : noRun2 p (x :: l) = true := by
  cases l with
  | nil => rfl
  | cons b r =>
    rw [noRun2, hx]
    simpa using h

theorem noRun3_cons_of_not {p : Char → Bool} {x : Char} {l : List Char}
    (hx : p x = false) (h : noRun3 p l = true) : noRun3 p (x :: l) = true := by
  cases l with
  | nil => rfl
  | cons b r =>
    cases r with
    | nil => rfl
    | cons c r2 =>
      rw [noRun3, hx]
      simpa using h

theorem noRun2_append_allnot {p : Char → Bool} {xs l : List Char}
    (hxs : ∀ x ∈ xs, p x = false) (h : noRun2 p l = true) :
    noRun2 p (xs ++ l) = true := by
  induction xs with
  | nil => simpa using h
  | cons x xs ih =>
    rw [List.cons_append]
    exact noRun2_cons_of_not (hxs x (by simp))
      (ih (fun y hy => hxs y (by simp [hy])))

theorem noRun3_append_allnot {p : Char → Bool} {xs l : List Char}
    (hxs : ∀ x ∈ xs, p x = false) (h : noRun3 p l = true) :
    noRun3 p (xs ++ l) = true := by
  induction xs with
  | nil => simpa using h
  | cons x xs ih =>
    rw [List.cons_append]
    exact noRun3_cons_of_not (hxs x (by simp))
      (ih (fun y hy => hxs y (by simp [hy])))

theorem noRun3_cons_of {p : Char → Bool} {x : Char} {M : List Char}
    (h : noRun3 p M = true)
    (hw : ∀ a b r2, M = a :: b :: r2 → (p x && p a && p b) = false) :
    noRun3 p (x :: M) = true := by
  cases M with
  | nil => rfl
  | cons a r =>
    cases r with
    | nil => rfl
    | cons b r2 =>
      rw [noRun3, hw a b r2 rfl]
      simpa using h

theorem noRun3_append_cons {p : Char → Bool} {xs l : List Char} {c : Char}
    (hxs : noRun3 p xs = true) (hc : p c = false) (hl : noRun3 p l = true) :
    noRun3 p (xs ++ c :: l) = true := by
  induction xs with
  | nil => exact noRun3_cons_of_not hc hl
  | cons x xs ih =>
    rw [List.cons_append]
    refine noRun3_cons_of (ih (noRun3_tail hxs)) ?_
    intro a b r2 heq
    cases xs with
    | nil =>
      simp only [List.nil_append] at heq
      cases heq
      simp [hc]
    | cons y ys =>
      cases ys with
      | nil =>
        simp only [List.cons_append, List.nil_append] at heq
        cases heq
        simp [hc]
      | cons z zs =>
        simp only [List.cons_append] at heq
        injection heq with h1 heq2
        injection heq2 with h2 _
        subst h1
        subst h2
        rw [noRun3] at hxs
        have h1 := (Bool.and_eq_true _ _ |>.mp hxs).1
        rw [Bool.not_eq_eq_eq_not] at h1
        simpa using h1

theorem noRun3_flushNl (k : Nat) : noRun3 isNlB (flushNl k) = true := by
  unfold flushNl
  split
  · rfl
  · rename_i h
    interval_cases k <;> rfl

theorem isNlB_flushNl {k : Nat} {x : Char} (hx : x ∈ flushNl k) : isNlB x = true := by
  unfold flushNl at hx
  split at hx
  · rcases List.mem_cons.mp hx with h | h
    · simp [h, isNlB]
    · simp at h
      simp [h, isNlB]
  · rw [List.eq_of_mem_replicate hx]
    rfl

theorem noRun3_collapseNlAux : ∀ (cs : List Char) (k : Nat),
    noRun3 isNlB (collapseNlAux k cs) = true := by
  intro cs
  induction cs with
  | nil => intro k; exact noRun3_flushNl k
  | cons c cs ih =>
    intro k
    by_cases hc : c == '\n'
    · rw [collapseNlAux, if_pos hc]
      exact ih (k + 1)
    · rw [collapseNlAux, if_neg hc]
      refine noRun3_append_cons (noRun3_flushNl k) ?_ (ih 0)
      simpa [isNlB] using hc

/-- The newline-collapsing substitution leaves no run of three newlines. -/
theorem noRun3_collapseNl (l : List Char) : noRun3 isNlB (collapseNl l) = true :=
  noRun3_collapseNlAux l 0

theorem noRun2_of_short {p : Char → Bool} {l : List Char} (h : l.length ≤ 1) :
    noRun2 p l = true := by
  cases l with
  | nil => rfl
  | cons a r =>
    cases r with
    | nil => rfl
    | cons b r2 => simp at h

theorem flushHws_len_le_one (pend : List Char) : (flushHws pend).length ≤ 1 := by
  unfold flushHws
  split
  · simp
  · rename_i h
    omega

theorem mem_flushHws {pend : List Char} {x : Char}
    (hall : ∀ y ∈ pend, isHwsB y = true) (hx : x ∈ flushHws pend) :
    isHwsB x = true := by
  unfold flushHws at hx
  split at hx
  · simp at hx
    simp [hx, isHwsB]
  · exact hall x hx

theorem noRun2_cons_cons_of_not {p : Char → Bool} {f c : Char} {l : List Char}
    (hc : p c = false) (h : noRun2 p (c :: l) = true) :
    noRun2 p (f :: c :: l) = true := by
  rw [noRun2, hc]
  simpa using h

theorem noRun2_hws_collapseHwsAux : ∀ (cs : List Char) (pend : List Char),
    noRun2 isHwsB (collapseHwsAux pend cs) = true := by
  intro cs
  induction cs with
  | nil =>
    intro pend
    exact noRun2_of_short (flushHws_len_le_one pend)
  | cons c cs ih =>
    intro pend
    by_cases hc : isHwsB c
    · rw [collapseHwsAux, if_pos hc]
      exact ih (pend ++ [c])
    · rw [collapseHwsAux, if_neg hc]
      have hcf : isHwsB c = false := by simpa using hc
      have htail : noRun2 isHwsB (c :: collapseHwsAux [] cs) = true :=
        noRun2_cons_of_not hcf (ih [])
      have hlen := flushHws_len_le_one pend
      cases hf : flushHws pend with
      | nil => simpa using htail
      | cons f fs =>
        cases fs with
        | nil =>
          rw [List.cons_append, List.nil_append]
          exact noRun2_cons_cons_of_not hcf htail
        | cons f2 fs2 =>
          rw [hf] at hlen
          simp at hlen

/-- The horizontal-whitespace-collapsing substitution leaves no run of two
horizontal whitespace characters. -/
theorem noRun2_hws_collapseHws (l : List Char) : noRun2 isHwsB (collapseHws l) = true :=
  noRun2_hws_collapseHwsAux l []

theorem hws_not_nl {y : Char} (hy : isHwsB y = true) : isNlB y = false := by
  rw [isHwsB] at hy
  rcases Bool.or_eq_true _ _ |>.mp hy with h | h
  · rw [isNlB, eq_of_beq h]
    rfl
  · rw [isNlB, eq_of_beq h]
    rfl

theorem flushHws_ne_nil {pend : List Char} (h : pend ≠ []) : flushHws pend ≠ [] := by
  unfold flushHws
  split
  · simp
  · exact h

theorem collapseHwsAux_head_hws : ∀ (cs pend : List Char), pend ≠ [] →
    (∀ y ∈ pend, isHwsB y = true) →
    ∃ d r, collapseHwsAux pend cs = d :: r ∧ isHwsB d = true := by
  intro cs
  induction cs with
  | nil =>
    intro pend hne hall
    rw [collapseHwsAux]
    cases hf : flushHws pend with
    | nil => exact absurd hf (flushHws_ne_nil hne)
    | cons d r =>
      exact ⟨d, r, rfl, mem_flushHws hall (by rw [hf]; simp)⟩
  | cons c cs ih =>
    intro pend hne hall
    by_cases hc : isHwsB c
    · rw [collapseHwsAux, if_pos hc]
      exact ih (pend ++ [c]) (by simp)
        (fun y hy => by
          rcases List.mem_append.mp hy with h | h
          · exact hall y h
          · simp at h
            rw [h]
            exact hc)
    · rw [collapseHwsAux, if_neg hc]
      cases hf : flushHws pend with
      | nil => exact absurd hf (flushHws_ne_nil hne)
      | cons d r =>
        exact ⟨d, r ++ c :: collapseHwsAux [] cs, by simp,
          mem_flushHws hall (by rw [hf]; simp)⟩

theorem collapseHwsAux_nil_head : ∀ (cs : List Char) (out : List Char),
    collapseHwsAux [] cs = '\n' :: out → ∃ cs2, cs = '\n' :: cs2 := by
  intro cs out heq
  cases cs with
  | nil => simp [collapseHwsAux, flushHws] at heq
  | cons c cs2 =>
    by_cases hc : isHwsB c
    · rw [collapseHwsAux, if_pos hc] at heq
      obtain ⟨d, r, hdr, hd⟩ := collapseHwsAux_head_hws cs2 [c] (by simp)
        (by intro y hy; simp at hy; rw [hy]; exact hc)
      rw [List.nil_append, hdr] at heq
      have hdn : d = '\n' := (List.cons.injEq _ _ _ _ |>.mp heq).1
      rw [hdn] at hd
      exact absurd hd (by simp [isHwsB])
    · rw [collapseHwsAux, if_neg hc] at heq
      have h1 : flushHws [] = [] := rfl
      rw [h1, List.nil_append] at heq
      have := (List.cons.injEq _ _ _ _ |>.mp heq).1
      exact ⟨cs2, by rw [this]⟩

theorem collapseHwsAux_nil_head2 : ∀ (cs : List Char) (out : List Char),
    collapseHwsAux [] cs = '\n' :: '\n' :: out → ∃ cs2, cs = '\n' :: '\n' :: cs2 := by
  intro cs out heq
  obtain ⟨cs1, h1⟩ := collapseHwsAux_nil_head cs _ heq
  rw [h1] at heq
  have hnl : isHwsB '\n' = false := by decide
  rw [collapseHwsAux, if_neg (by simp [hnl])] at heq
  have h2 : flushHws [] = [] := rfl
  rw [h2, List.nil_append] at heq
  have heq2 : collapseHwsAux [] cs1 = '\n' :: out :=
    (List.cons.injEq _ _ _ _ |>.mp heq).2
  obtain ⟨cs2, h3⟩ := collapseHwsAux_nil_head cs1 _ heq2
  exact ⟨cs2, by rw [h1, h3]⟩

theorem noRun3_nl_collapseHwsAux : ∀ (cs pend : List Char),
    (∀ y ∈ pend, isHwsB y = true) → noRun3 isNlB cs = true →
    noRun3 isNlB (collapseHwsAux pend cs) = true := by
  intro cs
  induction cs with
  | nil =>
    intro pend hall _
    rw [collapseHwsAux]
    have : ∀ x ∈ flushHws pend, isNlB x = false :=
      fun x hx => hws_not_nl (mem_flushHws hall hx)
    simpa using noRun3_append_allnot (l := []) this rfl
  | cons c cs ih =>
    intro pend hall h
    by_cases hc : isHwsB c
    · rw [collapseHwsAux, if_pos hc]
      exact ih (pend ++ [c])
        (fun y hy => by
          rcases List.mem_append.mp hy with h1 | h1
          · exact hall y h1
          · simp at h1
            rw [h1]
            exact hc)
        (noRun3_tail h)
    · rw [collapseHwsAux, if_neg hc]
      have hflush : ∀ x ∈ flushHws pend, isNlB x = false :=
        fun x hx => hws_not_nl (mem_flushHws hall hx)
      refine noRun3_append_allnot hflush ?_
      by_cases hcn : c = '\n'
      · subst hcn
        refine noRun3_cons_of (ih [] (by simp) (noRun3_tail h)) ?_
        intro a b r2 heq
        by_cases ha : isNlB a
        · by_cases hb : isNlB b
          · exfalso
            have ha' : a = '\n' := by
              rw [isNlB] at ha
              exact eq_of_beq ha
            have hb' : b = '\n' := by
              rw [isNlB] at hb
              exact eq_of_beq hb
            rw [ha', hb'] at heq
            obtain ⟨cs2, hcs⟩ := collapseHwsAux_nil_head2 cs r2 heq
            rw [hcs] at h
            rw [noRun3] at h
            simp [isNlB] at h
          · simp [hb]
        · simp [ha]
      · exact noRun3_cons_of_not (by simp [isNlB, hcn]) (ih [] (by simp) (noRun3_tail h))

/-- The horizontal-whitespace collapse preserves the absence of
three-newline runs. -/
theorem noRun3_nl_collapseHws {l : List Char} (h : noRun3 isNlB l = true) :
    noRun3 isNlB (collapseHws l) = true :=
  noRun3_nl_collapseHwsAux l [] (by simp) h

theorem noRun2_append_right {p : Char → Bool} {xs ys : List Char}
    (h : noRun2 p (xs ++ ys) = true) : noRun2 p ys = true := by
  induction xs with
  | nil => simpa using h
  | cons x xs ih =>
    rw [List.cons_append] at h
    exact ih (noRun2_tail h)

theorem noRun3_append_right {p : Char → Bool} {xs ys : List Char}
    (h : noRun3 p (xs ++ ys) = true) : noRun3 p ys = true := by
  induction xs with
  | nil => simpa using h
  | cons x xs ih =>
    rw [List.cons_append] at h
    exact ih (noRun3_tail h)

theorem noRun2_append_left {p : Char → Bool} {xs ys : List Char}
    (h : noRun2 p (xs ++ ys) = true) : noRun2 p xs = true := by
  induction xs with
  | nil => rfl
  | cons x xs ih =>
    rw [List.cons_append] at h
    have htail := ih (noRun2_tail h)
    cases hxs : xs with
    | nil => rfl
    | cons a r =>
      rw [noRun2]
      rw [hxs] at h htail
      rw [List.cons_append, noRun2] at h
      have h1 := (Bool.and_eq_true _ _ |>.mp h).1
      rw [h1]
      simpa using htail

theorem noRun3_append_left {p : Char → Bool} {xs ys : List Char}
    (h : noRun3 p (xs ++ ys) = true) : noRun3 p xs = true := by
  induction xs with
  | nil => rfl
  | cons x xs ih =>
    rw [List.cons_append] at h
    have htail := ih (noRun3_tail h)
    cases hxs : xs with
    | nil => rfl
    | cons a r =>
      cases hr : r with
      | nil => rfl
      | cons b r2 =>
        rw [noRun3]
        rw [hxs, hr] at h htail
        have h' : (!(p x && p a && p b) && noRun3 p (a :: b :: (r2 ++ ys))) = true := h
        have h1 := (Bool.and_eq_true _ _ |>.mp h').1
        rw [h1]
        simpa using htail

theorem noRun2_suffix {p : Char → Bool} {xs l : List Char}
    (hs : xs <:+ l) (h : noRun2 p l = true) : noRun2 p xs = true := by
  obtain ⟨t, ht⟩ := hs
  exact noRun2_append_right (ht ▸ h)

theorem noRun3_suffix {p : Char → Bool} {xs l : List Char}
    (hs : xs <:+ l) (h : noRun3 p l = true) : noRun3 p xs = true := by
  obtain ⟨t, ht⟩ := hs
  exact noRun3_append_right (ht ▸ h)

theorem noRun2_prefix {p : Char → Bool} {xs l : List Char}
    (hs : xs <+: l) (h : noRun2 p l = true) : noRun2 p xs = true := by
  obtain ⟨t, ht⟩ := hs
  exact noRun2_append_left (ht ▸ h)

theorem noRun3_prefix {p : Char → Bool} {xs l : List Char}
    (hs : xs <+: l) (h : noRun3 p l = true) : noRun3 p xs = true := by
  obtain ⟨t, ht⟩ := hs
  exact noRun3_append_left (ht ▸ h)

theorem pyStrip_prefix_lstrip (l : List Char) : pyStrip l <+: lstripW l := by
  unfold pyStrip
  rw [← List.reverse_suffix]
  simpa using List.dropWhile_suffix isSpcB

theorem pyStrip_suffix_or (l : List Char) : ∃ xs, pyStrip l <+: xs ∧ xs <:+ l :=
  ⟨lstripW l, pyStrip_prefix_lstrip l, List.dropWhile_suffix isSpcB⟩

theorem noRun2_pyStrip {p : Char → Bool} {l : List Char}
    (h : noRun2 p l = true) : noRun2 p (pyStrip l) = true :=
  noRun2_prefix (pyStrip_prefix_lstrip l)
    (noRun2_suffix (List.dropWhile_suffix isSpcB) h)

theorem noRun3_pyStrip {p : Char → Bool} {l : List Char}
    (h : noRun3 p l = true) : noRun3 p (pyStrip l) = true :=
  noRun3_prefix (pyStrip_prefix_lstrip l)
    (noRun3_suffix (List.dropWhile_suffix isSpcB) h)

theorem head?_dropWhile_spc {l : List Char} {c : Char}
    (h : (l.dropWhile isSpcB).head? = some c) : isSpcB c = false := by
  have hx := List.head?_dropWhile_not isSpcB l
  rw [h] at hx
  exact hx

theorem pyStrip_head_not_spc {l : List Char} {c : Char}
    (h : (pyStrip l).head? = some c) : isSpcB c = false := by
  obtain ⟨t, ht⟩ := pyStrip_prefix_lstrip l
  cases hp : pyStrip l with
  | nil => rw [hp] at h; simp at h
  | cons d r =>
    rw [hp] at h ht
    simp at h
    have hhead : (lstripW l).head? = some d := by
      rw [← ht]
      simp
    rw [← h]
    exact head?_dropWhile_spc hhead

theorem pyStrip_getLast_not_spc {l : List Char} {c : Char}
    (h : (pyStrip l).getLast? = some c) : isSpcB c = false := by
  unfold pyStrip at h
  rw [List.getLast?_reverse] at h
  exact head?_dropWhile_spc h

theorem final_stage_invariants (x : List Char) :
    noRun3 isNlB (pyStrip (collapseHws (collapseNl x))) = true ∧
      noRun2 isHwsB (pyStrip (collapseHws (collapseNl x))) = true ∧
      (∀ c ∈ (pyStrip (collapseHws (collapseNl x))).head?, isSpcB c = false) ∧
      (∀ c ∈ (pyStrip (collapseHws (collapseNl x))).getLast?, isSpcB c = false) := by
  refine ⟨noRun3_pyStrip (noRun3_nl_collapseHws (noRun3_collapseNl x)),
          noRun2_pyStrip (noRun2_hws_collapseHws _),
          fun c hc => pyStrip_head_not_spc (by simpa using hc),
          fun c hc => pyStrip_getLast_not_spc (by simpa using hc)⟩

/-- C5: the output of `clean_text` contains no run of three newline
characters (hence no run of 3 or more blank lines), no run of two
consecutive horizontal-whitespace characters, and neither starts nor ends
with a whitespace character. -/
theorem C5_theorem (t : List Char) :
    noRun3 isNlB (clean_text t) = true ∧
      noRun2 isHwsB (clean_text t) = true ∧
      (∀ c ∈ (clean_text t).head?, isSpcB c = false) ∧
      (∀ c ∈ (clean_text t).getLast?, isSpcB c = false) :=
  final_stage_invariants _
